import Mathlib

/-!
# Verification of the shortVideoMaker video-assembly pipeline

Shallow embedding of `app/services/video.py` (clip normalization, the
shuffle scheduler, duration reconciliation, subtitle wrapping, resource
teardown, background-music selection) together with proofs of the spec's
claims about it.

Durations are modelled as rationals (`ℚ`); file paths and text as `String`;
randomness (`random.choice`) as an adversarial stream of natural-number
indices consumed left to right; filesystem probes (`os.path.exists`) and
font metrics (`PIL.ImageFont.getbbox`) as explicit function parameters.
-/

namespace ShortVideoMaker

/-! ## Background music selection — `get_bgm_file` (video.py lines 101-114)

```python
def get_bgm_file(bgm_type: str = "random", bgm_file: str = ""):
    if not bgm_type:
        return ""
    if bgm_file and os.path.exists(bgm_file):
        return bgm_file
    if bgm_type == "random":
        ...
        return random.choice(files)
    return ""
```
`pathExists` models `os.path.exists`; `songChoice` models the
`random.choice` over the glob of the song directory. -/
def get_bgm_file (pathExists : String → Bool) (songChoice : String)
    (bgm_type : String) (bgm_file : String) : String :=
  if bgm_type = "" then ""
  else if bgm_file ≠ "" ∧ pathExists bgm_file then bgm_file
  else if bgm_type = "random" then songChoice
  else ""

/-! ## Audio/video duration reconciliation — `combine_videos` (lines 353-369)

```python
if video_duration < audio_duration:
    repeat_times = int(audio_duration / video_duration) + 1
    video_clip = concatenate_videoclips([video_clip] * repeat_times)
if video_clip.duration > audio_duration:
    video_clip = video_clip.subclip(0, audio_duration)
if audio_clip.duration > video_clip.duration:
    audio_clip = audio_clip.subclip(0, video_clip.duration)
```
`audioDuration = N` (narration), `videoDuration = V` (raw combined).
Python's `int(x)` truncates toward zero; for the positive quotients here
that is the floor. -/
def repeat_times (audioDuration videoDuration : ℚ) : ℤ :=
  ⌊audioDuration / videoDuration⌋ + 1

/-- The video-duration fix: repeat the video `repeat_times` times when it is
shorter than the narration. Returns the video duration after this step. -/
def fixVideoDuration (audioDuration videoDuration : ℚ) : ℚ :=
  if videoDuration < audioDuration then
    (repeat_times audioDuration videoDuration : ℚ) * videoDuration
  else videoDuration

/-- The full reconciliation stage in source order: video-duration fix, then
truncate video to narration if longer, then truncate narration to video if
narration is longer. Returns (final video duration, final audio duration). -/
def reconcileDurations (audioDuration videoDuration : ℚ) : ℚ × ℚ :=
  let v1 := fixVideoDuration audioDuration videoDuration
  let v2 := if v1 > audioDuration then audioDuration else v1
  let a2 := if audioDuration > v2 then v2 else audioDuration
  (v2, a2)

/-! ## Material preprocessing — `preprocess_video` (lines 582-626)

A `MaterialInfo` carries its url, the probed native size of the loaded
clip, and whether its extension is in `const.FILE_TYPE_IMAGES`. -/
structure MaterialInfo where
  url : String
  width : Nat
  height : Nat
  isImage : Bool
deriving DecidableEq, Repr

/-- One iteration of the `preprocess_video` loop: empty url is skipped,
low-resolution materials (`width < 480 or height < 480`) are skipped
(`continue`), image materials are rendered to `url + ".mp4"` and the
material's url is updated in place; everything else is untouched. -/
def preprocessMaterial (m : MaterialInfo) : MaterialInfo :=
  if m.url = "" then m
  else if m.width < 480 ∨ m.height < 480 then m
  else if m.isImage then { m with url := m.url ++ ".mp4" } else m

/-- `preprocess_video` loops over the materials, mutating each in place as
above, and returns the same list (`return materials`). -/
def preprocess_video (materials : List MaterialInfo) : List MaterialInfo :=
  materials.map preprocessMaterial

/-! ## The material-processing loop and the empty-clip-list check
(`combine_videos` lines 147-255)

Each source material is processed inside `try`/`except Exception: continue`;
a failure leaves the sub-clips already written to disk in
`processed_clip_paths` and moves on to the next material. `MatResult`
records, for one material, the clip paths written before any failure and
whether an exception was caught. -/
structure MatResult where
  clips : List String
  failed : Bool
deriving DecidableEq, Repr

/-- The per-material loop: every material contributes the clips it managed
to write; a caught exception never aborts the loop. -/
def processMaterials : List MatResult → List String
  | [] => []
  | m :: rest => m.clips ++ processMaterials rest

/-- Outcome of the merge stage of `combine_videos`: either the function
returns a path normally (`produced` records whether a merged artifact was
written to that path) or an exception propagates to the caller. -/
inductive CombineOutcome where
  | ok (path : String) (produced : Bool)
  | error (msg : String)
deriving DecidableEq, Repr

/-- Lines 253-264: with no processed clips the function logs a warning and
returns `combined_video_path` as-is; otherwise the clips are merged (single
clip: copied; several: batch-merged) into the output path. No exception is
raised in either case. -/
def combineMergeStage (processedClipPaths : List String)
    (combinedVideoPath : String) : CombineOutcome :=
  if processedClipPaths.isEmpty then .ok combinedVideoPath false
  else .ok combinedVideoPath true

/-! ## The clip-splitting loop — `combine_videos` (lines 163-206)

```python
start_time = 0
while start_time < clip_duration:
    end_time = min(start_time + max_clip_duration, clip_duration)
    subclip = clip.subclip(start_time, end_time)
    ...
    start_time = end_time
    if video_concat_mode.value == VideoConcatMode.sequential.value:
        break
```
`splitLoop` returns the list of `(start_time, end_time)` pairs. The `while`
loop always terminates for `m > 0` since `start_time` strictly increases by
`m` until it reaches `clip_duration`; `fuel` bounds the iterations and
`splitClip` supplies enough of it. `sequential = true` models the `break`
after the first sub-clip. -/
def splitLoop (clipDuration m : ℚ) (sequential : Bool) :
    Nat → ℚ → List (ℚ × ℚ)
  | 0, _ => []
  | fuel + 1, startTime =>
    if startTime < clipDuration then
      let endTime := min (startTime + m) clipDuration
      if sequential then [(startTime, endTime)]
      else (startTime, endTime) :: splitLoop clipDuration m sequential fuel endTime
    else []

/-- The splitting of one loaded source clip, from `start_time = 0`, with
enough fuel for the whole duration. -/
def splitClip (clipDuration m : ℚ) (sequential : Bool) : List (ℚ × ℚ) :=
  splitLoop clipDuration m sequential (⌈clipDuration / m⌉.toNat + 1) 0

/-- The durations of a list of sub-clips (`end_time - start_time`). -/
def clipDurations (l : List (ℚ × ℚ)) : List ℚ :=
  l.map fun p => p.2 - p.1

/-! ## Subtitle wrapping — `wrap_text` (lines 404-455)

`w` models the rendered width of a string (`get_text_size`'s first
component: `font.getbbox(inner_text.strip())` width) and `h` the rendered
height of the full phrase (its second component). Both are applied to the
stripped text exactly as `get_text_size` strips its argument.

Python's `str.strip()` and `str.split(" ")` are modelled directly
(`pyStrip`, `pySplit`): stripping removes whitespace at both ends, and
splitting on a single-space separator keeps empty pieces between
consecutive separators, exactly like Python. -/
def pyStrip (s : String) : String :=
  ⟨((s.data.dropWhile Char.isWhitespace).reverse.dropWhile
      Char.isWhitespace).reverse⟩

/-- Python `text.split(" ")` over the character list. -/
def pySplitChars : List Char → List String
  | [] => [""]
  | c :: rest =>
    if c = ' ' then "" :: pySplitChars rest
    else
      match pySplitChars rest with
      | [] => [String.mk [c]]
      | s :: ss => String.mk (c :: s.data) :: ss

def pySplit (s : String) : List String := pySplitChars s.data

/-- The word-level pass (lines 419-434). Returns the accumulated lines
(including the final `_txt_` flush at line 434) and the `processed` flag:
`false` when a single word alone exceeded the budget and the pass was
abandoned (`break`). -/
def wordLoop (w : String → ℚ) (maxWidth : ℚ) :
    List String → List String → String → List String × Bool
  | [], lines, txt => (lines ++ [txt], true)
  | word :: rest, lines, txt =>
    let before := txt
    let txt' := txt ++ word ++ " "
    if w (pyStrip txt') ≤ maxWidth then wordLoop w maxWidth rest lines txt'
    else if pyStrip txt' = pyStrip word then (lines ++ [txt'], false)
    else wordLoop w maxWidth rest (lines ++ [before]) (word ++ " ")

/-- The character-level fallback pass (lines 441-452): append each
character to `_txt_`; when the accumulated text's width exceeds the budget,
flush `_txt_` (overflowing character included) as a line and reset; the
final `_txt_` is appended at the end. -/
def charLoop (w : String → ℚ) (maxWidth : ℚ) :
    List Char → List String → String → List String
  | [], lines, txt => lines ++ [txt]
  | c :: rest, lines, txt =>
    let txt' := txt.push c
    if w (pyStrip txt') ≤ maxWidth then charLoop w maxWidth rest lines txt'
    else charLoop w maxWidth rest (lines ++ [txt']) ""

/-- The lines produced by the character-level pass on a whole phrase. -/
def charLines (w : String → ℚ) (maxWidth : ℚ) (text : String) : List String :=
  charLoop w maxWidth text.data [] ""

/-- `wrap_text` in full: early return when the whole phrase fits, else the
word pass; when the word pass aborts (`processed = False`), the character
pass. Returns `(wrapped text, reported height)`; the reported height is
(number of lines) x (the full phrase's rendered height). -/
def wrap_text (w h : String → ℚ) (maxWidth : ℚ) (text : String) : String × ℚ :=
  let height := h (pyStrip text)
  if w (pyStrip text) ≤ maxWidth then (text, height)
  else
    let wp := wordLoop w maxWidth (pySplit text) [] ""
    if wp.2 then
      (pyStrip (String.intercalate "\n" (wp.1.map pyStrip)),
        (wp.1.length : ℚ) * height)
    else
      let cl := charLines w maxWidth text
      (pyStrip (String.intercalate "\n" cl), (cl.length : ℚ) * height)

/-- The width budget handed to `wrap_text` by `generate_video`'s
`create_text_clip` (line 493): `max_width = video_width * 0.9`. -/
def subtitleMaxWidth (videoWidth : ℚ) : ℚ := videoWidth * (9 / 10)

/-! ## The random-mode shuffle — `combine_videos` (lines 218-247)

`random.choice(lst)` is modelled by consuming one index from an
adversarial stream `cs : List Nat` and taking `lst[c % len(lst)]`; every
possible run of the Python code corresponds to some stream. -/
def pick (l : List String) (cs : List Nat) : String × List Nat :=
  match cs with
  | [] => (l.getD 0 "", [])
  | c :: rest => (l.getD (c % l.length) "", rest)

/-- Lines 233-234: once only the last element remains in `available_paths`
and it equals `shuffled_paths[0]` (the FIRST placed element), swap
`shuffled_paths[-1]` with `available_paths[0]`. `racc` is `shuffled_paths`
in reverse order (head = last placed), so `shuffled_paths[0] =
racc.getLast` and `shuffled_paths[-1] = racc.head`. Returns the new
`(racc, avail)` and whether the swap fired. -/
def swapStep (racc avail : List String) : List String × List String × Bool :=
  if avail.length = 1 ∧ avail.headD "" = racc.getLastD "" then
    (avail.headD "" :: racc.tail, [racc.headD ""], true)
  else (racc, avail, false)

/-- Lines 237-239: candidates are the available paths different from the
last placed element; when none remain, fall back to all available paths.
Returns the candidate list and whether the fallback fired. -/
def candidatesStep (racc avail : List String) : List String × Bool :=
  let cands := avail.filter fun p => p ≠ racc.headD ""
  if cands.isEmpty then (avail, true) else (cands, false)

/-- The `while available_paths:` loop (lines 231-243). Each iteration
removes exactly one element from `avail` (`available_paths.remove` deletes
the first occurrence of the chosen value), so `fuel = avail.length`
suffices. Returns the final reversed order and two flags: whether the
head/tail swap ever fired and whether the exhaustion fallback ever fired. -/
def shuffleLoop : Nat → List String → List String → List Nat →
    List String × Bool × Bool
  | 0, racc, _, _ => (racc, false, false)
  | fuel + 1, racc, avail, cs =>
    if avail.isEmpty then (racc, false, false)
    else
      let s := swapStep racc avail
      let c := candidatesStep s.1 s.2.1
      let p := pick c.1 cs
      let r := shuffleLoop fuel (p.1 :: s.1) (s.2.1.erase p.1) p.2
      (r.1, s.2.2 || r.2.1, c.2 || r.2.2)

/-- Lines 219-247: with more than one processed clip, pick a random first
element and run the adjacent-repeat-avoiding loop; with at most one,
`random.shuffle` leaves the list as it is. Returns the final order plus
the (swap fired, fallback fired) flags. -/
def orderRandom (paths : List String) (cs : List Nat) :
    List String × Bool × Bool :=
  if 1 < paths.length then
    let p := pick paths cs
    let avail := paths.erase p.1
    let r := shuffleLoop avail.length [p.1] avail p.2
    (r.1.reverse, r.2)
  else (paths, false, false)

/-! ## Resource teardown — `close_clip` (lines 54-89)

A sub-resource (`clip.reader`, `clip.audio(.reader)`, `clip.mask(.reader)`)
is `absent` (attribute missing or `None`: the guard skips it), `ok`
(present, `close()` succeeds) or `bad` (present, `close()` raises). A clip
carries an identity used by the `child_clip is not clip` guard. -/
inductive Res where
  | absent
  | ok
  | bad
deriving DecidableEq, Repr

mutual
inductive Clip where
  | mk (id : Nat) (reader audioRes maskRes : Res) (children : ClipList)
inductive ClipList where
  | nil
  | cons (c : Clip) (rest : ClipList)
end

def clipId : Clip → Nat
  | .mk i _ _ _ _ => i

def clipReader : Clip → Res
  | .mk _ r _ _ _ => r

def clipAudio : Clip → Res
  | .mk _ _ a _ _ => a

def clipMask : Clip → Res
  | .mk _ _ _ m _ => m

def clipChildren : Clip → ClipList
  | .mk _ _ _ _ cs => cs

def ClipList.toList : ClipList → List Clip
  | .nil => []
  | .cons c rest => c :: rest.toList

/-- What a `close_clip` call did: the `(clip id, resource)` close events in
order, the ids of clips whose `clips` list was set to `[]`, and whether an
exception is escaping the current frame. -/
inductive ResKind where
  | reader
  | audioRes
  | maskRes
deriving DecidableEq, Repr

structure CloseRes where
  events : List (Nat × ResKind)
  cleared : List Nat
  exc : Bool
deriving DecidableEq, Repr

mutual
/-- The `try:` body of `close_clip`: close the reader, then the audio
reader, then the mask reader, then recurse into the children (skipping a
child that *is* the clip), then clear the child list. A `bad` close raises,
skipping everything after it in this frame (`exc := true`). A recursive
`close_clip(child_clip)` call has its own `try`/`except`, so a child's
exception never escapes into the parent. -/
def closeBody : Clip → CloseRes
  | .mk i r a m children =>
    if r = .bad then ⟨[], [], true⟩
    else
      let re := if r = .ok then [(i, ResKind.reader)] else []
      if a = .bad then ⟨re, [], true⟩
      else
        let ae := if a = .ok then [(i, ResKind.audioRes)] else []
        if m = .bad then ⟨re ++ ae, [], true⟩
        else
          let me_ := if m = .ok then [(i, ResKind.maskRes)] else []
          let cr := closeChildren i children
          ⟨re ++ ae ++ me_ ++ cr.1, cr.2 ++ [i], false⟩

/-- The `for child_clip in clip.clips:` loop: each child that is not the
clip itself is released by a recursive `close_clip` call (whose own
`except` swallows the child's failures). Accumulates the children's close
events and cleared ids. -/
def closeChildren (i : Nat) : ClipList → List (Nat × ResKind) × List Nat
  | .nil => ([], [])
  | .cons c rest =>
    let head :=
      if clipId c = i then (([], []) : List (Nat × ResKind) × List Nat)
      else
        let cr := closeBody c
        (cr.events, cr.cleared)
    let tail := closeChildren i rest
    (head.1 ++ tail.1, head.2 ++ tail.2)
end

/-- `close_clip` itself: `None` returns immediately; otherwise the body
runs under `try`/`except Exception`, which logs and suppresses, so the
call never raises (`exc = false` in the returned record). -/
def close_clip : Option Clip → CloseRes
  | none => ⟨[], [], false⟩
  | some c =>
    let r := closeBody c
    ⟨r.events, r.cleared, false⟩

/-! ## Claim theorems -/

/-- C10: `get_bgm_file` returns `""` whenever `bgm_type` is empty (even if
`bgm_file` exists); returns `bgm_file` whenever `bgm_type` is non-empty and
`bgm_file` is a non-empty existing path, regardless of `bgm_type`'s value;
and returns `""` for any non-empty `bgm_type` other than `"random"` with no
usable explicit file. -/
theorem c10_get_bgm_file_cases (pathExists : String → Bool)
    (songChoice : String) (bgm_type bgm_file : String) :
    (bgm_type = "" → get_bgm_file pathExists songChoice bgm_type bgm_file = "") ∧
    (bgm_type ≠ "" → bgm_file ≠ "" → pathExists bgm_file = true →
      get_bgm_file pathExists songChoice bgm_type bgm_file = bgm_file) ∧
    (bgm_type ≠ "" → bgm_type ≠ "random" →
      ¬(bgm_file ≠ "" ∧ pathExists bgm_file = true) →
      get_bgm_file pathExists songChoice bgm_type bgm_file = "") := by
  refine ⟨fun h => by simp [get_bgm_file, h], fun h1 h2 h3 => ?_, fun h1 h2 h3 => ?_⟩
  · simp [get_bgm_file, h1, h2, h3]
  · simp only [get_bgm_file, if_neg h1]
    rw [if_neg (by simpa using h3), if_neg h2]

/-- Witness for C10 at concrete inputs: empty type with an existing file,
a custom type with an existing file, and a custom type with no file. -/
theorem c10_witness :
    get_bgm_file (fun _ => true) "song.mp3" "" "b.mp3" = "" ∧
    get_bgm_file (fun _ => true) "song.mp3" "custom" "b.mp3" = "b.mp3" ∧
    get_bgm_file (fun _ => false) "song.mp3" "custom" "" = "" :=
  ⟨(c10_get_bgm_file_cases (fun _ => true) "song.mp3" "" "b.mp3").1 rfl,
    (c10_get_bgm_file_cases (fun _ => true) "song.mp3" "custom" "b.mp3").2.1
      (by decide) (by decide) rfl,
    (c10_get_bgm_file_cases (fun _ => false) "song.mp3" "custom" "").2.2
      (by decide) (by decide) (by simp)⟩

/-- C1: for narration duration `N > 0` and raw combined duration `V > 0`,
the reconciliation stage (video-duration fix, then video truncation to `N`,
then narration truncation to the video duration, in source order) ends with
final video duration exactly `N` (and final audio duration `N`), whether
`V < N` or `V > N`. -/
theorem c1_duration_reconciliation (N V : ℚ) (hN : 0 < N) (hV : 0 < V) :
    reconcileDurations N V = (N, N) := by
  by_cases h : V < N
  · have h1 : N / V < (⌊N / V⌋ : ℚ) + 1 := Int.lt_floor_add_one _
    have h2 : N < ((⌊N / V⌋ : ℚ) + 1) * V := by
      have := (div_lt_iff₀ hV).mp h1
      linarith
    have h3 : N < ((⌊N / V⌋ + 1 : ℤ) : ℚ) * V := by push_cast; linarith
    simp only [reconcileDurations, fixVideoDuration, repeat_times, if_pos h,
      gt_iff_lt, if_pos h3, lt_irrefl, if_neg (lt_irrefl N), if_false]
  · push_neg at h
    rcases lt_or_eq_of_le h with hgt | heq
    · simp only [reconcileDurations, fixVideoDuration, repeat_times,
        if_neg (not_lt.mpr (le_of_lt hgt)), gt_iff_lt, if_pos hgt,
        if_neg (lt_irrefl N)]
    · subst heq
      simp [reconcileDurations, fixVideoDuration, lt_irrefl]

/-- Witness for C1 at `N = 3`, `V = 2` (video shorter than narration). -/
theorem c1_witness : (0 : ℚ) < 3 ∧ (0 : ℚ) < 2 ∧
    reconcileDurations 3 2 = (3, 3) :=
  ⟨by norm_num, by norm_num,
    c1_duration_reconciliation 3 2 (by norm_num) (by norm_num)⟩

/-- C2 counterexample: at narration duration `N = 10` and video duration
`V = 5` (so `V < N`), the code repeats the video
`int(10/5) + 1 = 3` times, while `ceil(10/5) = 2`: the claim's repeat
count `ceil(N/V)` is wrong when `V` divides `N` exactly. -/
theorem c2_counterexample :
    (5 : ℚ) < 10 ∧ repeat_times 10 5 = 3 ∧ ⌈(10 : ℚ) / 5⌉ = 2 := by
  refine ⟨by norm_num, ?_, by norm_num⟩
  unfold repeat_times
  norm_num

/-- C2 (amended): when `V < N` the video is repeated `floor(N/V) + 1`
times; this equals `ceil(N/V)` exactly when `N/V` is not an integer and
`ceil(N/V) + 1` when it is, and in every case the repeated video strictly
covers the narration length. -/
theorem c2_repeat_covers (N V : ℚ) (hV : 0 < V) (h : V < N) :
    N < (repeat_times N V : ℚ) * V ∧
    ((¬∃ z : ℤ, (z : ℚ) = N / V) → repeat_times N V = ⌈N / V⌉) ∧
    ((∃ z : ℤ, (z : ℚ) = N / V) → repeat_times N V = ⌈N / V⌉ + 1) := by
  refine ⟨?_, fun hni => ?_, fun ⟨z, hz⟩ => ?_⟩
  · have h1 : N / V < (⌊N / V⌋ : ℚ) + 1 := Int.lt_floor_add_one _
    have h2 : N < ((⌊N / V⌋ : ℚ) + 1) * V := by
      have := (div_lt_iff₀ hV).mp h1
      linarith
    unfold repeat_times
    push_cast
    linarith
  · unfold repeat_times
    have hne : (⌊N / V⌋ : ℚ) ≠ N / V := fun hc => hni ⟨⌊N / V⌋, hc⟩
    have hlt : (⌊N / V⌋ : ℚ) < N / V := lt_of_le_of_ne (Int.floor_le _) hne
    have hle : ⌈N / V⌉ ≤ ⌊N / V⌋ + 1 :=
      Int.ceil_le.mpr (by push_cast; exact le_of_lt (Int.lt_floor_add_one _))
    have hge : ⌊N / V⌋ + 1 ≤ ⌈N / V⌉ := by
      by_contra hc
      push_neg at hc
      have : ⌈N / V⌉ ≤ ⌊N / V⌋ := by omega
      have := le_trans (Int.le_ceil (N / V)) (by exact_mod_cast Int.cast_le.mpr this)
      exact absurd (le_antisymm this (Int.floor_le _)) (Ne.symm hne)
    omega
  · unfold repeat_times
    rw [← hz]
    simp [Int.floor_intCast, Int.ceil_intCast]

/-- Witness for C2 (amended) at `N = 10`, `V = 4`: three repeats cover
`12 > 10`, and `10/4` is not an integer so the count equals `ceil(10/4)`. -/
theorem c2_witness : (0 : ℚ) < 4 ∧ (4 : ℚ) < 10 ∧
    ((10 : ℚ) < (repeat_times 10 4 : ℚ) * 4 ∧
      ((¬∃ z : ℤ, (z : ℚ) = (10 : ℚ) / 4) → repeat_times 10 4 = ⌈(10 : ℚ) / 4⌉) ∧
      ((∃ z : ℤ, (z : ℚ) = (10 : ℚ) / 4) → repeat_times 10 4 = ⌈(10 : ℚ) / 4⌉ + 1)) :=
  ⟨by norm_num, by norm_num, c2_repeat_covers 10 4 (by norm_num) (by norm_num)⟩

/-- C5 counterexample: a 320x240 image material is below the 480x480
threshold, yet `preprocess_video` returns it unchanged in the result list —
it is skipped, not excluded. -/
theorem c5_counterexample :
    ((⟨"a.jpg", 320, 240, true⟩ : MaterialInfo).width < 480 ∨
      (⟨"a.jpg", 320, 240, true⟩ : MaterialInfo).height < 480) ∧
    preprocess_video [⟨"a.jpg", 320, 240, true⟩] = [⟨"a.jpg", 320, 240, true⟩] ∧
    (⟨"a.jpg", 320, 240, true⟩ : MaterialInfo) ∈
      preprocess_video [⟨"a.jpg", 320, 240, true⟩] := by
  refine ⟨by left; decide, ?_, ?_⟩ <;> decide

/-- C5 (amended): a material whose native width or height is below 480 is
skipped by `preprocess_video` — it is left unmodified and remains in the
returned list (it is not excluded) — and the loop never fails on it. -/
theorem c5_low_res_skipped (ms : List MaterialInfo) (m : MaterialInfo)
    (hmem : m ∈ ms) (hlow : m.width < 480 ∨ m.height < 480) :
    preprocessMaterial m = m ∧ m ∈ preprocess_video ms := by
  have hid : preprocessMaterial m = m := by
    unfold preprocessMaterial
    by_cases hu : m.url = ""
    · simp [hu]
    · simp [hu, hlow]
  exact ⟨hid, by
    unfold preprocess_video
    rw [← hid]
    exact List.mem_map_of_mem preprocessMaterial hmem⟩

/-- Witness for C5 (amended) at a concrete 100x600 material in a two-item
list. -/
theorem c5_witness :
    (⟨"b.mp4", 100, 600, false⟩ : MaterialInfo) ∈
      ([⟨"b.mp4", 100, 600, false⟩, ⟨"c.mp4", 700, 600, false⟩] :
        List MaterialInfo) ∧
    ((⟨"b.mp4", 100, 600, false⟩ : MaterialInfo).width < 480 ∨
      (⟨"b.mp4", 100, 600, false⟩ : MaterialInfo).height < 480) ∧
    (preprocessMaterial ⟨"b.mp4", 100, 600, false⟩ =
        (⟨"b.mp4", 100, 600, false⟩ : MaterialInfo) ∧
      (⟨"b.mp4", 100, 600, false⟩ : MaterialInfo) ∈
        preprocess_video [⟨"b.mp4", 100, 600, false⟩, ⟨"c.mp4", 700, 600, false⟩]) :=
  ⟨by decide, by left; decide,
    c5_low_res_skipped _ _ (by decide) (by left; decide)⟩

/-- C6 counterexample: with zero surviving clips, `combine_videos` returns
the output path normally (after only a log warning) and produces nothing —
it does not surface a job-level failure. -/
theorem c6_counterexample :
    combineMergeStage [] "out.mp4" = CombineOutcome.ok "out.mp4" false := by
  decide

/-- C6 (amended): an error on one material is absorbed inside the
processing loop — the loop keeps that material's already-written clips and
continues with the rest — and when zero clips survive, `combine_videos`
logs a warning and returns the output path early without raising and
without producing a merged artifact (no job-level failure is surfaced). -/
theorem c6_absorbed_and_quiet_empty (pre post : List MatResult)
    (bad : MatResult) (hbad : bad.failed = true) (out : String) :
    processMaterials (pre ++ bad :: post) =
      processMaterials pre ++ (bad.clips ++ processMaterials post) ∧
    (processMaterials (pre ++ bad :: post) = [] →
      combineMergeStage (processMaterials (pre ++ bad :: post)) out =
        CombineOutcome.ok out false) := by
  constructor
  · induction pre with
    | nil => simp [processMaterials]
    | cons p rest ih => simp [processMaterials, ih]
  · intro hempty
    rw [hempty]
    simp [combineMergeStage]

/-- Witness for C6 (amended): one failing material between two good ones. -/
theorem c6_witness :
    (MatResult.mk [] true).failed = true ∧
    (processMaterials ([⟨["c1"], false⟩] ++ (⟨[], true⟩ : MatResult) ::
        [⟨["c2"], false⟩]) =
      processMaterials [⟨["c1"], false⟩] ++
        (([] : List String) ++ processMaterials [⟨["c2"], false⟩]) ∧
      (processMaterials ([⟨["c1"], false⟩] ++ (⟨[], true⟩ : MatResult) ::
          [⟨["c2"], false⟩]) = [] →
        combineMergeStage (processMaterials ([⟨["c1"], false⟩] ++
            (⟨[], true⟩ : MatResult) :: [⟨["c2"], false⟩])) "o.mp4" =
          CombineOutcome.ok "o.mp4" false)) :=
  ⟨rfl, c6_absorbed_and_quiet_empty [⟨["c1"], false⟩] [⟨["c2"], false⟩]
    ⟨[], true⟩ rfl "o.mp4"⟩

/-- C8: whenever the whole phrase's rendered width fits within the width
budget `0.9 x canvas width`, `wrap_text` returns the phrase unchanged with
the single line's rendered height (one line). -/
theorem c8_wrap_idempotent (w h : String → ℚ) (videoWidth : ℚ)
    (text : String) (hfit : w (pyStrip text) ≤ subtitleMaxWidth videoWidth) :
    wrap_text w h (subtitleMaxWidth videoWidth) text =
      (text, h (pyStrip text)) := by
  simp [wrap_text, hfit]

/-- Witness for C8 at `w = h =` string length, canvas width 10, phrase
`"hi"`: budget is 9 and the phrase has width 2. -/
theorem c8_witness :
    (fun s : String => (s.length : ℚ)) (pyStrip "hi") ≤ subtitleMaxWidth 10 ∧
    wrap_text (fun s : String => (s.length : ℚ))
        (fun s : String => (s.length : ℚ)) (subtitleMaxWidth 10) "hi" =
      ("hi", (fun s : String => (s.length : ℚ)) (pyStrip "hi")) :=
  ⟨by
      show ((pyStrip "hi").length : ℚ) ≤ subtitleMaxWidth 10
      rw [show (pyStrip "hi").length = 2 from by decide]
      norm_num [subtitleMaxWidth],
    c8_wrap_idempotent _ _ 10 "hi" (by
      show ((pyStrip "hi").length : ℚ) ≤ subtitleMaxWidth 10
      rw [show (pyStrip "hi").length = 2 from by decide]
      norm_num [subtitleMaxWidth])⟩

/-- Invariant of the character-level pass: if every already-closed line
exceeds the budget and the accumulator fits (or is empty), then in the
final line list every line but the last exceeds the budget and the last
fits (or is empty). -/
theorem charLoop_lines_spec (w : String → ℚ) (maxWidth : ℚ) :
    ∀ (chars : List Char) (lines : List String) (txt : String),
      (∀ l ∈ lines, maxWidth < w (pyStrip l)) →
      (txt = "" ∨ w (pyStrip txt) ≤ maxWidth) →
      (∀ l ∈ (charLoop w maxWidth chars lines txt).dropLast,
        maxWidth < w (pyStrip l)) ∧
      ((charLoop w maxWidth chars lines txt).getLastD "" = "" ∨
        w (pyStrip ((charLoop w maxWidth chars lines txt).getLastD "")) ≤
          maxWidth) := by
  intro chars
  induction chars with
  | nil =>
    intro lines txt hl ht
    constructor
    · intro l hmem
      simp only [charLoop, List.dropLast_concat] at hmem
      exact hl l hmem
    · simpa only [charLoop, List.getLastD_concat] using ht
  | cons c rest ih =>
    intro lines txt hl ht
    simp only [charLoop]
    by_cases hw : w (pyStrip (txt.push c)) ≤ maxWidth
    · rw [if_pos hw]
      exact ih lines (txt.push c) hl (Or.inr hw)
    · rw [if_neg hw]
      refine ih (lines ++ [txt.push c]) "" ?_ (Or.inl rfl)
      intro l hmem
      rcases List.mem_append.mp hmem with hmem | hmem
      · exact hl l hmem
      · rw [List.mem_singleton] at hmem
        subst hmem
        exact lt_of_not_le hw

/-- C7 counterexample: with the width of a string modelled as its length
and a budget of 2, the phrase `"abcd"` (a single unbreakable word, so the
character pass runs) wraps to the lines `["abc", "d"]`: the produced line
`"abc"` has width `3 > 2` and is not a single atomic character, refuting
that no produced line exceeds the budget except single-character tokens. -/
theorem c7_counterexample :
    charLines (fun s => (s.length : ℚ)) 2 "abcd" = ["abc", "d"] ∧
    (wrap_text (fun s => (s.length : ℚ)) (fun s => (s.length : ℚ)) 2
        "abcd").1 = "abc\nd" ∧
    "abc" ∈ charLines (fun s => (s.length : ℚ)) 2 "abcd" ∧
    ¬(((pyStrip "abc").length : ℚ) ≤ 2) ∧ ("abc" : String).length ≠ 1 := by
  refine ⟨by decide, by decide, by decide, by decide, by decide⟩

/-- C7 (amended): in `wrap_text`'s character-level fallback pass a line is
closed immediately *after* appending the character that makes the
accumulated line exceed the budget — the overflowing character is included
in the closed line. Hence every produced line except the final one strictly
exceeds the width budget, and only the final line is guaranteed within the
budget (or empty). -/
theorem c7_char_pass_lines (w : String → ℚ) (maxWidth : ℚ) (text : String) :
    (∀ l ∈ (charLines w maxWidth text).dropLast,
      maxWidth < w (pyStrip l)) ∧
    ((charLines w maxWidth text).getLastD "" = "" ∨
      w (pyStrip ((charLines w maxWidth text).getLastD "")) ≤ maxWidth) :=
  charLoop_lines_spec w maxWidth text.data [] "" (by simp) (Or.inl rfl)

/-- For a rational that is not an integer, the ceiling is the floor plus
one. -/
theorem ceil_eq_floor_add_one_of_not_int (x : ℚ)
    (hx : ¬∃ z : ℤ, (z : ℚ) = x) : ⌈x⌉ = ⌊x⌋ + 1 := by
  have hne : (⌊x⌋ : ℚ) ≠ x := fun hc => hx ⟨⌊x⌋, hc⟩
  have hlt : (⌊x⌋ : ℚ) < x := lt_of_le_of_ne (Int.floor_le _) hne
  have hle : ⌈x⌉ ≤ ⌊x⌋ + 1 :=
    Int.ceil_le.mpr (by push_cast; exact le_of_lt (Int.lt_floor_add_one _))
  have hge : ⌊x⌋ + 1 ≤ ⌈x⌉ := by
    by_contra hc
    push_neg at hc
    have h1 : ⌈x⌉ ≤ ⌊x⌋ := by omega
    have h2 : x ≤ (⌊x⌋ : ℚ) :=
      le_trans (Int.le_ceil x) (by exact_mod_cast Int.cast_le.mpr h1)
    exact absurd (le_antisymm h2 (Int.floor_le _)).symm hne
  omega

/-- The splitting loop does nothing once `start_time` has reached the clip
duration, whatever fuel remains. -/
theorem splitLoop_stop (D m : ℚ) (seq : Bool) (fuel : Nat) (s : ℚ)
    (hs : ¬s < D) : splitLoop D m seq fuel s = [] := by
  cases fuel with
  | zero => rfl
  | succ f => simp [splitLoop, hs]

/-- Characterization of the random-mode splitting loop from any
`start_time < D`, given enough fuel: the sub-clip durations are
`⌈(D-start)/m⌉ - 1` copies of `m` followed by the remainder. -/
theorem splitLoop_durations (D m : ℚ) (hm : 0 < m) :
    ∀ (fuel : Nat) (start : ℚ), start < D → D - start ≤ fuel * m →
      clipDurations (splitLoop D m false fuel start) =
        List.replicate (⌈(D - start) / m⌉.toNat - 1) m ++
          [D - start - m * ((⌈(D - start) / m⌉.toNat - 1 : ℕ) : ℚ)] := by
  intro fuel
  induction fuel with
  | zero =>
    intro start hs hle
    exfalso
    simp only [Nat.cast_zero, zero_mul] at hle
    linarith
  | succ f ih =>
    intro start hs hle
    simp only [splitLoop, if_pos hs, Bool.false_eq_true, if_false]
    by_cases h2 : start + m < D
    · have hmin : min (start + m) D = start + m := min_eq_left (le_of_lt h2)
      have hle' : D - (start + m) ≤ f * m := by
        push_cast at hle ⊢
        linarith
      have hrec := ih (start + m) h2 hle'
      have hquot : (D - start) / m = (D - (start + m)) / m + 1 := by
        field_simp
        ring
      have hceil : ⌈(D - start) / m⌉ = ⌈(D - (start + m)) / m⌉ + 1 := by
        rw [hquot, Int.ceil_add_one]
      have hpos : (0 : ℚ) < (D - (start + m)) / m :=
        div_pos (by linarith) hm
      have hcpos : 1 ≤ ⌈(D - (start + m)) / m⌉ := Int.ceil_pos.mpr hpos
      have hn : ⌈(D - start) / m⌉.toNat = ⌈(D - (start + m)) / m⌉.toNat + 1 := by
        omega
      have hn1 : 1 ≤ ⌈(D - (start + m)) / m⌉.toNat := by omega
      rw [hmin]
      simp only [clipDurations, List.map_cons] at hrec ⊢
      rw [hrec, hn]
      have hrepl : List.replicate (⌈(D - (start + m)) / m⌉.toNat + 1 - 1) m =
          m :: List.replicate (⌈(D - (start + m)) / m⌉.toNat - 1) m := by
        have : ⌈(D - (start + m)) / m⌉.toNat + 1 - 1 =
            (⌈(D - (start + m)) / m⌉.toNat - 1) + 1 := by omega
        rw [this, List.replicate_succ]
      rw [hrepl]
      have hd : start + m - start = m := by ring
      have hlast : D - (start + m) - m * ((⌈(D - (start + m)) / m⌉.toNat - 1 : ℕ) : ℚ) =
          D - start - m * ((⌈(D - (start + m)) / m⌉.toNat + 1 - 1 : ℕ) : ℚ) := by
        have hcast : ((⌈(D - (start + m)) / m⌉.toNat + 1 - 1 : ℕ) : ℚ) =
            ((⌈(D - (start + m)) / m⌉.toNat - 1 : ℕ) : ℚ) + 1 := by
          have h3 : ⌈(D - (start + m)) / m⌉.toNat + 1 - 1 =
              (⌈(D - (start + m)) / m⌉.toNat - 1) + 1 := by omega
          rw [h3]
          push_cast
          ring
        rw [hcast]
        ring
      rw [hlast]
      simp [List.cons_append, hd]
    · have hmin : min (start + m) D = D := min_eq_right (by linarith)
      rw [hmin, splitLoop_stop D m false f D (lt_irrefl D)]
      have hx1 : (D - start) / m ≤ 1 := by
        rw [div_le_one hm]
        linarith
      have hx0 : (0 : ℚ) < (D - start) / m := div_pos (by linarith) hm
      have hceil1 : ⌈(D - start) / m⌉ = 1 :=
        le_antisymm (Int.ceil_le.mpr (by exact_mod_cast hx1))
          (Int.ceil_pos.mpr hx0)
      rw [hceil1]
      simp [clipDurations]

/-- C4: for a successfully loaded source of duration `D > 0` and
`max_clip_duration = m > 0`, the random-mode splitting loop yields exactly
`⌈D/m⌉` sub-clips whose durations sum to `D`, each of length `m` except
the last, whose length is `D mod m` (i.e. `D - m*⌊D/m⌋`), or `m` when `D`
is an exact multiple of `m`. -/
theorem c4_split_characterization (D m : ℚ) (hD : 0 < D) (hm : 0 < m) :
    (splitClip D m false).length = ⌈D / m⌉.toNat ∧
    (clipDurations (splitClip D m false)).sum = D ∧
    (∀ d ∈ (clipDurations (splitClip D m false)).dropLast, d = m) ∧
    ((∃ z : ℤ, (z : ℚ) * m = D) →
      (clipDurations (splitClip D m false)).getLastD 0 = m) ∧
    ((¬∃ z : ℤ, (z : ℚ) * m = D) →
      (clipDurations (splitClip D m false)).getLastD 0 = D - m * ⌊D / m⌋) := by
  have hq : (0 : ℚ) < D / m := div_pos hD hm
  have hcpos : 1 ≤ ⌈D / m⌉ := Int.ceil_pos.mpr hq
  have hkz : (⌈D / m⌉.toNat : ℤ) = ⌈D / m⌉ := Int.toNat_of_nonneg (by omega)
  have hkc : ((⌈D / m⌉.toNat : ℕ) : ℚ) = (⌈D / m⌉ : ℚ) := by exact_mod_cast hkz
  have hfuel : D - 0 ≤ (⌈D / m⌉.toNat + 1 : ℕ) * m := by
    have h1 : D / m ≤ (⌈D / m⌉ : ℚ) := Int.le_ceil _
    have h2 : D ≤ (⌈D / m⌉ : ℚ) * m := by
      have h3 := mul_le_mul_of_nonneg_right h1 (le_of_lt hm)
      rwa [div_mul_cancel₀ D (ne_of_gt hm)] at h3
    have hcast : ((⌈D / m⌉.toNat + 1 : ℕ) : ℚ) = (⌈D / m⌉ : ℚ) + 1 := by
      rw [Nat.cast_add, Nat.cast_one, hkc]
    rw [hcast]
    nlinarith
  have hchar := splitLoop_durations D m hm (⌈D / m⌉.toNat + 1) 0 (by linarith)
    hfuel
  rw [sub_zero] at hchar
  have hchar' : clipDurations (splitClip D m false) =
      List.replicate (⌈D / m⌉.toNat - 1) m ++
        [D - m * ((⌈D / m⌉.toNat - 1 : ℕ) : ℚ)] := by
    simpa [splitClip, sub_zero] using hchar
  have hk1 : 1 ≤ ⌈D / m⌉.toNat := by omega
  have hlenc : (clipDurations (splitClip D m false)).length = ⌈D / m⌉.toNat := by
    rw [hchar']
    simp only [List.length_append, List.length_replicate, List.length_singleton]
    omega
  refine ⟨?_, ?_, ?_, ?_, ?_⟩
  · have : (clipDurations (splitClip D m false)).length =
        (splitClip D m false).length := List.length_map _ _
    omega
  · rw [hchar']
    rw [List.sum_append, List.sum_replicate, List.sum_singleton, nsmul_eq_mul]
    ring
  · intro d hd
    rw [hchar', List.dropLast_concat] at hd
    exact List.eq_of_mem_replicate hd
  · rintro ⟨z, hz⟩
    have hzq : (z : ℚ) = D / m := by
      rw [eq_div_iff (ne_of_gt hm)]
      exact hz
    have hceil : ⌈D / m⌉ = z := by rw [← hzq, Int.ceil_intCast]
    have hz1 : 1 ≤ z := by omega
    rw [hchar', List.getLastD_concat]
    have hcast : ((⌈D / m⌉.toNat - 1 : ℕ) : ℚ) = (z : ℚ) - 1 := by
      have h3 : ⌈D / m⌉.toNat - 1 = (z - 1).toNat := by omega
      have h4 : ((z - 1).toNat : ℤ) = z - 1 :=
        Int.toNat_of_nonneg (by omega)
      rw [h3]
      exact_mod_cast h4
    rw [hcast]
    have : D = (z : ℚ) * m := hz.symm
    nlinarith
  · intro hni
    have hni' : ¬∃ z : ℤ, (z : ℚ) = D / m := by
      rintro ⟨z, hz⟩
      exact hni ⟨z, by rw [hz]; field_simp⟩
    have hceil : ⌈D / m⌉ = ⌊D / m⌋ + 1 :=
      ceil_eq_floor_add_one_of_not_int _ hni'
    have hf0 : 0 ≤ ⌊D / m⌋ := Int.floor_nonneg.mpr (le_of_lt hq)
    rw [hchar', List.getLastD_concat]
    have hcast : ((⌈D / m⌉.toNat - 1 : ℕ) : ℚ) = (⌊D / m⌋ : ℚ) := by
      have h3 : ⌈D / m⌉.toNat - 1 = ⌊D / m⌋.toNat := by omega
      rw [h3]
      exact_mod_cast Int.toNat_of_nonneg hf0
    rw [hcast]

/-- Witness for C4 at `D = 7`, `m = 3`: three sub-clips, durations
`[3, 3, 1]`. -/
theorem c4_witness : (0 : ℚ) < 7 ∧ (0 : ℚ) < 3 ∧
    ((splitClip 7 3 false).length = ⌈(7 : ℚ) / 3⌉.toNat ∧
      (clipDurations (splitClip 7 3 false)).sum = 7 ∧
      (∀ d ∈ (clipDurations (splitClip 7 3 false)).dropLast, d = 3) ∧
      ((∃ z : ℤ, (z : ℚ) * 3 = 7) →
        (clipDurations (splitClip 7 3 false)).getLastD 0 = 3) ∧
      ((¬∃ z : ℤ, (z : ℚ) * 3 = 7) →
        (clipDurations (splitClip 7 3 false)).getLastD 0 =
          7 - 3 * ⌊(7 : ℚ) / 3⌋)) :=
  ⟨by norm_num, by norm_num,
    c4_split_characterization 7 3 (by norm_num) (by norm_num)⟩

/-- An in-bounds `getD` is a member of the list. -/
theorem getD_mem (l : List String) (n : Nat) (d : String)
    (h : n < l.length) : l.getD n d ∈ l := by
  rw [List.getD_eq_getElem?_getD, List.getElem?_eq_getElem h]
  exact List.getElem_mem h

/-- `pick` always returns an element of a non-empty list. -/
theorem pick_mem (l : List String) (cs : List Nat) (hl : l ≠ []) :
    (pick l cs).1 ∈ l := by
  have hpos : 0 < l.length := List.length_pos.mpr hl
  cases cs with
  | nil => exact getD_mem l 0 "" hpos
  | cons c rest => exact getD_mem l (c % l.length) "" (Nat.mod_lt _ hpos)

/-- When the swap did not fire, `swapStep` changes nothing. -/
theorem swapStep_not_fired {racc avail r a : List String}
    (h : swapStep racc avail = (r, a, false)) : r = racc ∧ a = avail := by
  unfold swapStep at h
  split at h
  · simp at h
  · simp only [Prod.mk.injEq] at h
    exact ⟨h.1.symm, h.2.1.symm⟩

/-- The swap step preserves the combined multiset of placed and available
elements. -/
theorem swapStep_perm (racc avail : List String) (hne : racc ≠ []) :
    ((swapStep racc avail).1 ++ (swapStep racc avail).2.1).Perm
      (racc ++ avail) := by
  obtain ⟨h, t, rfl⟩ : ∃ h t, racc = h :: t := by
    cases racc with
    | nil => exact absurd rfl hne
    | cons h t => exact ⟨h, t, rfl⟩
  unfold swapStep
  split
  · rename_i hcond
    obtain ⟨hlen, hhead⟩ := hcond
    obtain ⟨x, rfl⟩ : ∃ x, avail = [x] := by
      cases avail with
      | nil => simp at hlen
      | cons y ys =>
        cases ys with
        | nil => exact ⟨y, rfl⟩
        | cons z zs => simp at hlen
    simp only [List.headD_cons, List.tail_cons]
    show ((x :: t) ++ [h]).Perm ((h :: t) ++ [x])
    have p2 : (x :: (t ++ [h])).Perm (x :: h :: t) :=
      (List.perm_append_singleton h t).cons x
    have p3 : (x :: h :: t).Perm (h :: x :: t) := List.Perm.swap h x t
    have p5 : (h :: x :: t).Perm (h :: (t ++ [x])) :=
      ((List.perm_append_singleton x t).symm).cons h
    exact (p2.trans p3).trans p5
  · exact List.Perm.refl _

/-- The swap step keeps the placed list non-empty and the available list's
length unchanged. -/
theorem swapStep_shape (racc avail : List String) (hne : racc ≠ []) :
    (swapStep racc avail).1 ≠ [] ∧
    (swapStep racc avail).2.1.length = avail.length := by
  unfold swapStep
  split
  · rename_i hcond
    exact ⟨by simp, by simp [hcond.1]⟩
  · exact ⟨hne, rfl⟩

/-- The candidates are a non-empty sublist of the available paths. -/
theorem candidatesStep_sound (racc avail : List String) (hav : avail ≠ []) :
    (candidatesStep racc avail).1 ≠ [] ∧
    ∀ x ∈ (candidatesStep racc avail).1, x ∈ avail := by
  simp only [candidatesStep]
  split
  · exact ⟨hav, fun x hx => hx⟩
  · rename_i hne
    refine ⟨by simpa [List.isEmpty_iff] using hne, fun x hx => ?_⟩
    exact (List.mem_filter.mp hx).1

/-- When the exhaustion fallback did not fire, every candidate differs from
the last placed element. -/
theorem candidatesStep_not_fired {racc avail c : List String}
    (h : candidatesStep racc avail = (c, false)) :
    ∀ x ∈ c, x ≠ racc.headD "" := by
  simp only [candidatesStep] at h
  split at h
  · simp at h
  · simp only [Prod.mk.injEq] at h
    intro x hx
    rw [← h.1] at hx
    exact of_decide_eq_true (List.mem_filter.mp hx).2

/-- The shuffle loop's output, with enough fuel, is a permutation of the
already-placed elements together with the available ones. -/
theorem shuffleLoop_perm (fuel : Nat) :
    ∀ (racc avail : List String) (cs : List Nat), racc ≠ [] →
      avail.length ≤ fuel →
      (shuffleLoop fuel racc avail cs).1.Perm (racc ++ avail) := by
  induction fuel with
  | zero =>
    intro racc avail cs hne hlen
    have hav : avail = [] := List.eq_nil_of_length_eq_zero (Nat.le_zero.mp hlen)
    subst hav
    simp [shuffleLoop]
  | succ f ih =>
    intro racc avail cs hne hlen
    by_cases hav : avail = []
    · subst hav
      simp [shuffleLoop]
    · have hav' : ¬avail.isEmpty = true := by simpa [List.isEmpty_iff] using hav
      simp only [shuffleLoop, if_neg hav']
      have hs := swapStep_perm racc avail hne
      have hshape := swapStep_shape racc avail hne
      have hav2 : (swapStep racc avail).2.1 ≠ [] := by
        intro hc
        rw [hc] at hshape
        exact hav (List.eq_nil_of_length_eq_zero hshape.2.symm)
      have hcand := candidatesStep_sound (swapStep racc avail).1
        (swapStep racc avail).2.1 hav2
      have hpmem : (pick (candidatesStep (swapStep racc avail).1
          (swapStep racc avail).2.1).1 cs).1 ∈ (swapStep racc avail).2.1 :=
        hcand.2 _ (pick_mem _ cs hcand.1)
      have herase : (swapStep racc avail).2.1.Perm
          ((pick (candidatesStep (swapStep racc avail).1
            (swapStep racc avail).2.1).1 cs).1 ::
            (swapStep racc avail).2.1.erase
              (pick (candidatesStep (swapStep racc avail).1
                (swapStep racc avail).2.1).1 cs).1) :=
        List.perm_cons_erase hpmem
      have hlen2 : ((swapStep racc avail).2.1.erase
          (pick (candidatesStep (swapStep racc avail).1
            (swapStep racc avail).2.1).1 cs).1).length ≤ f := by
        rw [List.length_erase_of_mem hpmem, hshape.2]
        omega
      have hrec := ih ((pick (candidatesStep (swapStep racc avail).1
          (swapStep racc avail).2.1).1 cs).1 :: (swapStep racc avail).1)
        ((swapStep racc avail).2.1.erase
          (pick (candidatesStep (swapStep racc avail).1
            (swapStep racc avail).2.1).1 cs).1)
        (pick (candidatesStep (swapStep racc avail).1
          (swapStep racc avail).2.1).1 cs).2 (by simp) hlen2
      exact hrec.trans
        ((List.perm_middle.symm.trans (herase.symm.append_left _)).trans hs)

/-- The shuffle loop preserves the no-adjacent-duplicates invariant of the
placed prefix in any run where neither the head/tail swap nor the
exhaustion fallback ever fires. -/
theorem shuffleLoop_chain (fuel : Nat) :
    ∀ (racc avail : List String) (cs : List Nat), racc ≠ [] →
      List.Chain' (· ≠ ·) racc →
      (shuffleLoop fuel racc avail cs).2.1 = false →
      (shuffleLoop fuel racc avail cs).2.2 = false →
      List.Chain' (· ≠ ·) (shuffleLoop fuel racc avail cs).1 := by
  induction fuel with
  | zero =>
    intro racc avail cs hne hch hsw hfb
    simpa [shuffleLoop] using hch
  | succ f ih =>
    intro racc avail cs hne hch hsw hfb
    by_cases hav : avail.isEmpty = true
    · simpa [shuffleLoop, hav] using hch
    · simp only [shuffleLoop, if_neg hav] at hsw hfb ⊢
      rw [Bool.or_eq_false_iff] at hsw hfb
      obtain ⟨hsw1, hsw2⟩ := hsw
      obtain ⟨hfb1, hfb2⟩ := hfb
      have hseq : swapStep racc avail =
          ((swapStep racc avail).1, (swapStep racc avail).2.1, false) := by
        rw [← hsw1]
      obtain ⟨hr, ha⟩ := swapStep_not_fired hseq
      rw [hr, ha] at hsw2 hfb2 hfb1 ⊢
      have havne : avail ≠ [] := by simpa [List.isEmpty_iff] using hav
      have hcand := candidatesStep_sound racc avail havne
      have hpm : (pick (candidatesStep racc avail).1 cs).1 ∈
          (candidatesStep racc avail).1 := pick_mem _ cs hcand.1
      have hcneq : candidatesStep racc avail =
          ((candidatesStep racc avail).1, false) := by rw [← hfb1]
      have hneq := candidatesStep_not_fired hcneq _ hpm
      obtain ⟨h, t, rfl⟩ : ∃ h t, racc = h :: t := by
        cases racc with
        | nil => exact absurd rfl hne
        | cons h t => exact ⟨h, t, rfl⟩
      exact ih _ _ _ (by simp)
        (List.chain'_cons.mpr ⟨by simpa using hneq, hch⟩) hsw2 hfb2

/-- C3 counterexample: input `["a", "a", "b"]` (three entries, two distinct
keys) with choice stream `[0, 0, 0]` yields output `["a", "a", "b"]` — an
adjacent identical pair — while the exhaustion fallback never fired (final
fallback flag `false`; only the head/tail swap fired, which the claim's
exception does not cover). -/
theorem c3_counterexample :
    orderRandom ["a", "a", "b"] [0, 0, 0] = (["a", "a", "b"], true, false) ∧
    ("a" : String) ≠ "b" ∧
    ¬List.Chain' (fun x y => x ≠ y) (["a", "a", "b"] : List String) := by
  refine ⟨by decide, by decide, fun hc => (List.chain'_cons.mp hc).1 rfl⟩

/-- C3 (amended): with more than one processed clip, the random-mode
ordering always outputs a permutation of the input; and in any run in
which neither the exhaustion fallback (all remaining candidates equal the
last placed element) nor the final head/tail swap fired, no element is
immediately preceded by an identical element. (The head/tail swap — which
fires when the last remaining element equals the *first* placed one — can
itself create an adjacent identical pair, as the counterexample shows.) -/
theorem c3_random_order (paths : List String) (cs : List Nat)
    (hlen : 1 < paths.length) :
    ((orderRandom paths cs).1.Perm paths) ∧
    ((orderRandom paths cs).2.1 = false →
      (orderRandom paths cs).2.2 = false →
      List.Chain' (· ≠ ·) (orderRandom paths cs).1) := by
  have hne : paths ≠ [] := by
    intro hnil
    rw [hnil] at hlen
    simp at hlen
  have hmem : (pick paths cs).1 ∈ paths := pick_mem paths cs hne
  simp only [orderRandom, if_pos hlen]
  constructor
  · have h1 := shuffleLoop_perm (paths.erase (pick paths cs).1).length
      [(pick paths cs).1] (paths.erase (pick paths cs).1) (pick paths cs).2
      (by simp) le_rfl
    have h2 : ((pick paths cs).1 ::
        paths.erase (pick paths cs).1).Perm paths :=
      (List.perm_cons_erase hmem).symm
    exact ((List.reverse_perm _).trans h1).trans h2
  · intro hsw hfb
    have hch := shuffleLoop_chain (paths.erase (pick paths cs).1).length
      [(pick paths cs).1] (paths.erase (pick paths cs).1) (pick paths cs).2
      (by simp) (List.chain'_singleton _) hsw hfb
    rw [List.chain'_reverse]
    exact hch.imp fun a b hab => Ne.symm hab

/-- Witness for C3 (amended) at input `["a", "b"]`, choice stream
`[0, 0]`. -/
theorem c3_witness :
    1 < (["a", "b"] : List String).length ∧
    ((orderRandom ["a", "b"] [0, 0]).1.Perm ["a", "b"] ∧
      ((orderRandom ["a", "b"] [0, 0]).2.1 = false →
        (orderRandom ["a", "b"] [0, 0]).2.2 = false →
        List.Chain' (· ≠ ·) (orderRandom ["a", "b"] [0, 0]).1)) :=
  ⟨by decide, c3_random_order ["a", "b"] [0, 0] (by decide)⟩

/-- The children loop accumulates exactly the events and cleared ids of
`close_clip` on each child whose identity differs from the parent's. -/
theorem closeChildren_eq (i : Nat) : (l : ClipList) →
    closeChildren i l =
      ((l.toList.map fun ch =>
          if clipId ch = i then [] else (closeBody ch).events).flatten,
        (l.toList.map fun ch =>
          if clipId ch = i then [] else (closeBody ch).cleared).flatten)
  | .nil => rfl
  | .cons c rest => by
    have ih := closeChildren_eq i rest
    simp only [closeChildren, ClipList.toList, List.map_cons,
      List.flatten_cons, ih]
    by_cases hc : clipId c = i <;> simp [hc]

/-- C9 counterexample: a clip whose reader close raises (`bad`) while its
audio and mask sub-resources are present and closable (`ok`): `close_clip`
swallows the exception and raises nothing, but the audio and mask
sub-resources are never closed — a *failure* of one close does prevent the
others, because one `try`/`except` wraps the whole body. -/
theorem c9_counterexample :
    clipAudio (Clip.mk 0 .bad .ok .ok .nil) = Res.ok ∧
    clipMask (Clip.mk 0 .bad .ok .ok .nil) = Res.ok ∧
    close_clip (some (Clip.mk 0 .bad .ok .ok .nil)) =
      CloseRes.mk [] [] false ∧
    (0, ResKind.audioRes) ∉
      (close_clip (some (Clip.mk 0 .bad .ok .ok .nil))).events ∧
    (0, ResKind.maskRes) ∉
      (close_clip (some (Clip.mk 0 .bad .ok .ok .nil))).events := by
  refine ⟨rfl, rfl, by decide, by decide, by decide⟩

/-- C9 (amended): `close_clip` never raises (the whole body is wrapped in
one `try`/`except` that logs and suppresses) and is safe on `None`. The
*absence* of the reader, audio or mask resource does not prevent closing
the others: when no close raises, every present resource is closed, each
child that is not the clip itself is recursively released, and the child
list is cleared. But a *failure* while closing one resource aborts the
rest of that clip's cleanup: a raising reader close skips the audio and
mask closes, the child recursion and the list clearing; a raising audio
close likewise skips everything after it. -/
theorem c9_close_clip_behavior (c : Clip) :
    close_clip none = ⟨[], [], false⟩ ∧
    (close_clip (some c)).exc = false ∧
    (clipReader c ≠ .bad → clipAudio c ≠ .bad → clipMask c ≠ .bad →
      (close_clip (some c)).events =
        (if clipReader c = .ok then [(clipId c, ResKind.reader)] else []) ++
          (if clipAudio c = .ok then [(clipId c, ResKind.audioRes)] else []) ++
          (if clipMask c = .ok then [(clipId c, ResKind.maskRes)] else []) ++
          ((clipChildren c).toList.map fun ch =>
            if clipId ch = clipId c then []
            else (close_clip (some ch)).events).flatten ∧
      (close_clip (some c)).cleared =
        ((clipChildren c).toList.map fun ch =>
          if clipId ch = clipId c then []
          else (close_clip (some ch)).cleared).flatten ++ [clipId c]) ∧
    (clipReader c = .bad →
      (close_clip (some c)).events = [] ∧
      (close_clip (some c)).cleared = []) ∧
    (clipReader c ≠ .bad → clipAudio c = .bad →
      (close_clip (some c)).events =
        (if clipReader c = .ok then [(clipId c, ResKind.reader)] else []) ∧
      (close_clip (some c)).cleared = []) := by
  obtain ⟨i, r, a, m, children⟩ := c
  simp only [clipReader, clipAudio, clipMask, clipId, clipChildren]
  refine ⟨rfl, rfl, ?_, ?_, ?_⟩
  · intro hr ha hm
    simp only [close_clip, closeBody, if_neg hr, if_neg ha, if_neg hm,
      closeChildren_eq]
    constructor
    · simp only [close_clip, List.append_assoc]
      rfl
    · rfl
  · intro hr
    simp [close_clip, closeBody, hr]
  · intro hr ha
    simp [close_clip, closeBody, if_neg hr, ha]

/-- Witness for C9 (amended) at a clip with a closable reader, an absent
audio resource, a closable mask and one distinct child. -/
theorem c9_witness :
    clipReader (Clip.mk 0 .ok .absent .ok
        (.cons (Clip.mk 1 .ok .absent .absent .nil) .nil)) ≠ .bad ∧
    clipAudio (Clip.mk 0 .ok .absent .ok
        (.cons (Clip.mk 1 .ok .absent .absent .nil) .nil)) ≠ .bad ∧
    clipMask (Clip.mk 0 .ok .absent .ok
        (.cons (Clip.mk 1 .ok .absent .absent .nil) .nil)) ≠ .bad ∧
    ((close_clip (some (Clip.mk 0 .ok .absent .ok
        (.cons (Clip.mk 1 .ok .absent .absent .nil) .nil)))).events =
      (if clipReader (Clip.mk 0 .ok .absent .ok
          (.cons (Clip.mk 1 .ok .absent .absent .nil) .nil)) = .ok then
        [(clipId (Clip.mk 0 .ok .absent .ok
          (.cons (Clip.mk 1 .ok .absent .absent .nil) .nil)),
            ResKind.reader)] else []) ++
        (if clipAudio (Clip.mk 0 .ok .absent .ok
            (.cons (Clip.mk 1 .ok .absent .absent .nil) .nil)) = .ok then
          [(clipId (Clip.mk 0 .ok .absent .ok
            (.cons (Clip.mk 1 .ok .absent .absent .nil) .nil)),
              ResKind.audioRes)] else []) ++
        (if clipMask (Clip.mk 0 .ok .absent .ok
            (.cons (Clip.mk 1 .ok .absent .absent .nil) .nil)) = .ok then
          [(clipId (Clip.mk 0 .ok .absent .ok
            (.cons (Clip.mk 1 .ok .absent .absent .nil) .nil)),
              ResKind.maskRes)] else []) ++
        ((clipChildren (Clip.mk 0 .ok .absent .ok
            (.cons (Clip.mk 1 .ok .absent .absent .nil) .nil))).toList.map
          fun ch =>
            if clipId ch = clipId (Clip.mk 0 .ok .absent .ok
                (.cons (Clip.mk 1 .ok .absent .absent .nil) .nil)) then []
            else (close_clip (some ch)).events).flatten ∧
      (close_clip (some (Clip.mk 0 .ok .absent .ok
          (.cons (Clip.mk 1 .ok .absent .absent .nil) .nil)))).cleared =
        ((clipChildren (Clip.mk 0 .ok .absent .ok
            (.cons (Clip.mk 1 .ok .absent .absent .nil) .nil))).toList.map
          fun ch =>
            if clipId ch = clipId (Clip.mk 0 .ok .absent .ok
                (.cons (Clip.mk 1 .ok .absent .absent .nil) .nil)) then []
            else (close_clip (some ch)).cleared).flatten ++
          [clipId (Clip.mk 0 .ok .absent .ok
            (.cons (Clip.mk 1 .ok .absent .absent .nil) .nil))]) :=
  ⟨by decide, by decide, by decide,
    (c9_close_clip_behavior (Clip.mk 0 .ok .absent .ok
      (.cons (Clip.mk 1 .ok .absent .absent .nil) .nil))).2.2.1
      (by decide) (by decide) (by decide)⟩

end ShortVideoMaker
